import Mathlib

/-!
Verification of the UTF-8 codec, position-mapping utilities and the `ustring`
code-point buffer of `stringutils.h`.  All machine integers are modelled as
`Nat` with explicit `% 2 ^ w` where the C code can wrap: `size_t` is 64-bit,
the code-point type `_CodeT` is instantiated at 32 bits (`char32_t`), and
bytes are `Nat` values below 256.
-/

set_option maxRecDepth 100000
set_option maxHeartbeats 1600000

namespace StringUtils

/-- Model of `static const size_t npos = static_cast<size_t>(-1)` with 64-bit `size_t`. -/
def npos : Nat := 2 ^ 64 - 1

/-- Number of binary digits of `n`, computed with explicit fuel (the first
argument) so that it reduces inside `decide`.  `bitLen f n` is exact whenever
`n < 2 ^ f`. -/
def bitLen : Nat → Nat → Nat
  | 0, _ => 0
  | f + 1, n => if n = 0 then 0 else bitLen f (n / 2) + 1

/-- Model of `__builtin_clz` on a 32-bit value: count of leading zero bits.
The C builtin is undefined at 0; the sole call site below never passes 0. -/
def clz32 (x : Nat) : Nat := 32 - bitLen 32 x

/-- Sign extension performed by the cast `(unsigned int)first_byte` in the CLZ
variant of `get_codepoint_bytes`: `char` is signed, so byte values at or above
0x80 extend to `0xFFFFFFxx`. -/
def charToUInt (b : Nat) : Nat := if b < 0x80 then b else 0xFFFFFF00 + b

/-- Model of the `STRINGUTILS_USE_CLZ` variant of
`get_codepoint_bytes(char first_byte, size_t len)`.  The C code computes
`clz(~((unsigned int)first_byte << 24))` and returns it when
`size_t(codepoint_bytes - 1) < len` (a wrapping subtraction), else 1. -/
def get_codepoint_bytes_clz (first_byte len : Nat) : Nat :=
  if first_byte ≠ 0 then
    let codepoint_bytes :=
      clz32 (2 ^ 32 - 1 - (charToUInt first_byte <<< 24) % 2 ^ 32)
    if (codepoint_bytes + (2 ^ 64 - 1)) % 2 ^ 64 < len then codepoint_bytes
    else 1
  else 1

/-- Model of the branch-cascade variant of
`get_codepoint_bytes(char first_byte, size_t len)`.  The C `switch (len)`
with fallthrough enters at `case len` and tests each byte-pattern mask for
widths from `min len 7` down to 2, returning 1 when none matches. -/
def get_codepoint_bytes (first_byte len : Nat) : Nat :=
  if 7 ≤ len ∧ first_byte &&& 0xFF = 0xFE then 7
  else if 6 ≤ len ∧ first_byte &&& 0xFE = 0xFC then 6
  else if 5 ≤ len ∧ first_byte &&& 0xFC = 0xF8 then 5
  else if 4 ≤ len ∧ first_byte &&& 0xF8 = 0xF0 then 4
  else if 3 ≤ len ∧ first_byte &&& 0xF0 = 0xE0 then 3
  else if 2 ≤ len ∧ first_byte &&& 0xE0 = 0xC0 then 2
  else 1

/-- Model of the codepoint-to-width overload `get_codepoint_bytes(_CodeT cp)`
(the default, non-CLZ branch cascade). -/
def get_codepoint_bytes_of_cp (cp : Nat) : Nat :=
  if cp ≤ 0x7F then 1
  else if cp ≤ 0x7FF then 2
  else if cp ≤ 0xFFFF then 3
  else if cp ≤ 0x1FFFFF then 4
  else if cp ≤ 0x3FFFFFF then 5
  else if cp ≤ 0x7FFFFFFF then 6
  else 7

/-- Number of leading one-bits in the 8-bit byte `b` — the width signalled by
a lead byte's high-bit pattern as described by the spec (`0` for ASCII,
`2`–`7` for multi-byte forms, `1` for a bare continuation byte pattern `10`). -/
def leadingOnes (b : Nat) : Nat := 8 - bitLen 8 (255 - b)

/-- Model of `utf8_encode(_CodeT cp, char* dest, width_type cp_bytes)`.
The `switch (cp_bytes)` writes, for a width `w ≥ 2`, continuation bytes
`dest[i] = 0x80 | ((cp >> 6*(w-1-i)) & 0x3F)` for `i = 1 .. w-1` (cases 7
down to 2 with fallthrough) and the lead byte
`dest[0] = (unsigned char)((0xFF00 >> w) | (cp >> (6*w - 6)))`; for width 1 it
writes the raw byte `(unsigned char)cp`.  Width 0 matches no case and writes
nothing. -/
def utf8_encode (cp : Nat) (cp_bytes : Nat) : List Nat :=
  match cp_bytes with
  | 0 => []
  | 1 => [cp % 256]
  | w + 2 =>
    ((0xFF00 >>> (w + 2)) ||| (cp >>> (6 * (w + 2) - 6))) % 256 ::
      (List.range (w + 1)).map
        (fun i => 0x80 ||| ((cp >>> (6 * (w - i))) &&& 0x3F))

/-- Model of `utf8_decode(const char* str, width_type num_bytes)` at a 32-bit
`_CodeT`: start from the first byte, mask it with `0x7F >> num_bytes` when
`num_bytes > 1`, then fold in the low 6 bits of each of the following
`num_bytes - 1` bytes; every assignment to the 32-bit `cp` reduces mod
`2 ^ 32`. -/
def utf8_decode (s : List Nat) (num_bytes : Nat) : Nat :=
  let cp := s.headD 0
  if 1 < num_bytes then
    ((s.drop 1).take (num_bytes - 1)).foldl
      (fun a b => ((a <<< 6) ||| (b &&& 0x3F)) % 2 ^ 32)
      ((cp &&& (0x7F >>> num_bytes)) % 2 ^ 32)
  else cp

/-- Value of the `clz` expression inside `get_codepoint_bytes_clz`, as a
function of the first byte alone. -/
def clzVal (b : Nat) : Nat :=
  clz32 (2 ^ 32 - 1 - (charToUInt b <<< 24) % 2 ^ 32)

lemma get_codepoint_bytes_clz_eq (b len : Nat) :
    get_codepoint_bytes_clz b len =
      if b ≠ 0 then
        if (clzVal b + (2 ^ 64 - 1)) % 2 ^ 64 < len then clzVal b else 1
      else 1 := rfl

lemma clzVal_le_eight : ∀ b < 256, clzVal b ≤ 8 := by decide

/-- The branch cascade reads `len` only through the guards `k ≤ len` for
`k ≤ 7`, so any two lengths at least 7 give the same width. -/
lemma get_codepoint_bytes_stable {l₁ l₂ : Nat} (h₁ : 7 ≤ l₁) (h₂ : 7 ≤ l₂)
    (b : Nat) : get_codepoint_bytes b l₁ = get_codepoint_bytes b l₂ := by
  unfold get_codepoint_bytes
  have a2 : 2 ≤ l₁ := by omega
  have a3 : 3 ≤ l₁ := by omega
  have a4 : 4 ≤ l₁ := by omega
  have a5 : 5 ≤ l₁ := by omega
  have a6 : 6 ≤ l₁ := by omega
  have b2 : 2 ≤ l₂ := by omega
  have b3 : 3 ≤ l₂ := by omega
  have b4 : 4 ≤ l₂ := by omega
  have b5 : 5 ≤ l₂ := by omega
  have b6 : 6 ≤ l₂ := by omega
  simp only [h₁, h₂, a2, a3, a4, a5, a6, b2, b3, b4, b5, b6, true_and]

/-- The CLZ variant reads `len` only through `size_t(clz - 1) < len`, and for a
first byte other than `0xFF` the clz value is at most 7, so any two lengths at
least 8 (below `2^64`) give the same width. -/
lemma get_codepoint_bytes_clz_stable {b l : Nat} (hb : b ≤ 254) (h : 8 ≤ l)
    (hl : l < 2 ^ 64) :
    get_codepoint_bytes_clz b l = get_codepoint_bytes_clz b 8 := by
  rw [get_codepoint_bytes_clz_eq, get_codepoint_bytes_clz_eq]
  rcases eq_or_ne b 0 with rfl | hb0
  · simp
  · have hle : clzVal b ≤ 8 := clzVal_le_eight b (by omega)
    rcases Nat.eq_zero_or_pos (clzVal b) with h0 | hpos
    · have hwrap : (clzVal b + (2 ^ 64 - 1)) % 2 ^ 64 = 2 ^ 64 - 1 := by
        rw [h0]; norm_num
      have c1 : ¬ (2 ^ 64 - 1 < l) := by omega
      have c2 : ¬ (2 ^ 64 - 1 < 8) := by norm_num
      rw [if_pos hb0, if_pos hb0, hwrap, if_neg c1, if_neg c2]
    · have hwrap : (clzVal b + (2 ^ 64 - 1)) % 2 ^ 64 = clzVal b - 1 := by
        omega
      have hcb7 : clzVal b ≤ 7 := by
        rcases Nat.lt_or_ge (clzVal b) 8 with h8 | h8
        · omega
        · exfalso
          have heq : clzVal b = 8 := by omega
          -- only 0xFF has eight leading one-bits
          have hne : ∀ b' < 255, clzVal b' ≠ 8 := by decide
          exact hne b (by omega) heq
      have c1 : clzVal b - 1 < l := by omega
      have c2 : clzVal b - 1 < 8 := by omega
      rw [if_pos hb0, if_pos hb0, hwrap, if_pos c1, if_pos c2]

/-- C4 counterexample: at first byte `0xFF` with 8 bytes remaining the CLZ
variant returns 8 while the branch cascade returns 1, so the two
implementations do not agree on every input. -/
theorem get_codepoint_bytes_variants_disagree_at_0xFF :
    get_codepoint_bytes_clz 0xFF 8 = 8 ∧ get_codepoint_bytes 0xFF 8 = 1 ∧
      get_codepoint_bytes_clz 0xFF 8 ≠ get_codepoint_bytes 0xFF 8 := by decide

/-- C4 (amended): the CLZ variant and the branch cascade of
`get_codepoint_bytes(first_byte, len)` return the same width for every first
byte in `[0, 255]` and every remaining length `len` (a `size_t`, below
`2^64`), except for first byte `0xFF` with `len ≥ 8`, where the CLZ variant
returns 8 and the cascade returns 1. -/
theorem get_codepoint_bytes_variants_agree (b len : Nat) (hb : b ≤ 255)
    (hlen : len < 2 ^ 64) (h : b ≠ 0xFF ∨ len < 8) :
    get_codepoint_bytes_clz b len = get_codepoint_bytes b len := by
  rcases Nat.lt_or_ge len 8 with hl | hl
  · have all : ∀ b' < 256, ∀ l < 8,
        get_codepoint_bytes_clz b' l = get_codepoint_bytes b' l := by decide
    exact all b (by omega) len hl
  · have hb254 : b ≤ 254 := by
      rcases h with h | h
      · omega
      · omega
    have at8 : ∀ b' < 255,
        get_codepoint_bytes_clz b' 8 = get_codepoint_bytes b' 8 := by decide
    calc get_codepoint_bytes_clz b len
        = get_codepoint_bytes_clz b 8 :=
          get_codepoint_bytes_clz_stable hb254 hl hlen
      _ = get_codepoint_bytes b 8 := at8 b (by omega)
      _ = get_codepoint_bytes b len :=
          get_codepoint_bytes_stable (by omega) (by omega) b

/-- Witness for C4 (amended) at first byte `0xE4` and length 8. -/
theorem get_codepoint_bytes_variants_agree_witness :
    0xE4 ≤ 255 ∧ (8 : Nat) < 2 ^ 64 ∧
      get_codepoint_bytes_clz 0xE4 8 = get_codepoint_bytes 0xE4 8 :=
  ⟨by decide, by norm_num,
    get_codepoint_bytes_variants_agree 0xE4 8 (by decide) (by norm_num)
      (Or.inl (by decide))⟩

/-- C5 counterexample: the lead byte `0xE0` signals width 3, but with only 2
bytes remaining both implementations of `get_codepoint_bytes` return 1, not
the signalled width 3. -/
theorem get_codepoint_bytes_truncated_returns_one_not_width :
    leadingOnes 0xE0 = 3 ∧ (2 : Nat) < 3 ∧
      get_codepoint_bytes 0xE0 2 = 1 ∧ get_codepoint_bytes_clz 0xE0 2 = 1 ∧
      get_codepoint_bytes 0xE0 2 ≠ 3 := by decide

/-- C5 (amended): for every lead byte whose high-bit pattern signals a
multi-byte width `w ∈ [2, 7]` and every remaining length `len < w`, both
implementations of `get_codepoint_bytes(first_byte, len)` return 1 — the
width is neither the signalled `w` nor clamped to `len`. -/
theorem get_codepoint_bytes_truncated (b w len : Nat) (hb : b ≤ 255)
    (hw : leadingOnes b = w) (hw2 : 2 ≤ w) (hw7 : w ≤ 7) (hlen : len < w) :
    get_codepoint_bytes b len = 1 ∧ get_codepoint_bytes_clz b len = 1 := by
  subst hw
  have all : ∀ b' < 256, ∀ l < 7, 2 ≤ leadingOnes b' → l < leadingOnes b' →
      get_codepoint_bytes b' l = 1 ∧ get_codepoint_bytes_clz b' l = 1 := by
    decide
  exact all b (by omega) len (by omega) hw2 hlen

/-- Witness for C5 (amended) at lead byte `0xF0` (signalled width 4) with 3
bytes remaining. -/
theorem get_codepoint_bytes_truncated_witness :
    leadingOnes 0xF0 = 4 ∧ (3 : Nat) < 4 ∧
      get_codepoint_bytes 0xF0 3 = 1 ∧ get_codepoint_bytes_clz 0xF0 3 = 1 :=
  ⟨by decide, by decide,
    get_codepoint_bytes_truncated 0xF0 4 3 (by decide) (by decide) (by decide)
      (by decide) (by decide)⟩

section RoundTrip

lemma or_of_lt (a b k : Nat) (hb : b < 2 ^ k) :
    (2 ^ k * a) ||| b = 2 ^ k * a + b :=
  (Nat.mul_add_lt_is_or hb a).symm

lemma and63 (x : Nat) : x &&& 63 = x % 64 := by
  simpa using Nat.and_pow_two_sub_one_eq_mod x 6

lemma and31 (x : Nat) : x &&& 31 = x % 32 := by
  simpa using Nat.and_pow_two_sub_one_eq_mod x 5

lemma and15 (x : Nat) : x &&& 15 = x % 16 := by
  simpa using Nat.and_pow_two_sub_one_eq_mod x 4

lemma and7 (x : Nat) : x &&& 7 = x % 8 := by
  simpa using Nat.and_pow_two_sub_one_eq_mod x 3

lemma and3 (x : Nat) : x &&& 3 = x % 4 := by
  simpa using Nat.and_pow_two_sub_one_eq_mod x 2

lemma and1 (x : Nat) : x &&& 1 = x % 2 :=
  Nat.and_one_is_mod x

lemma or64 (a b : Nat) : a * 64 ||| b % 64 = a * 64 + b % 64 := by
  simpa [Nat.mul_comm] using or_of_lt a (b % 64) 6 (Nat.mod_lt _ (by norm_num))

lemma or128 (b : Nat) : 128 ||| b % 64 = 128 + b % 64 := by
  simpa using or_of_lt 2 (b % 64) 6 (Nat.mod_lt _ (by norm_num))

lemma shl6 (a : Nat) : a <<< 6 = a * 64 := by
  rw [Nat.shiftLeft_eq]

lemma shr6 (a : Nat) : a >>> 6 = a / 64 := by
  rw [Nat.shiftRight_eq_div_pow]

lemma shr12 (a : Nat) : a >>> 12 = a / 4096 := by
  rw [Nat.shiftRight_eq_div_pow]

lemma shr18 (a : Nat) : a >>> 18 = a / 262144 := by
  rw [Nat.shiftRight_eq_div_pow]

lemma shr24 (a : Nat) : a >>> 24 = a / 16777216 := by
  rw [Nat.shiftRight_eq_div_pow]

lemma shr30 (a : Nat) : a >>> 30 = a / 1073741824 := by
  rw [Nat.shiftRight_eq_div_pow]

lemma utf8_encode_one (cp : Nat) : utf8_encode cp 1 = [cp % 256] := rfl

lemma utf8_encode_two (cp : Nat) :
    utf8_encode cp 2 =
      [(16320 ||| cp >>> 6) % 256, 128 ||| (cp &&& 63)] := rfl

lemma utf8_encode_three (cp : Nat) :
    utf8_encode cp 3 =
      [(8160 ||| cp >>> 12) % 256, 128 ||| ((cp >>> 6) &&& 63),
        128 ||| (cp &&& 63)] := rfl

lemma utf8_encode_four (cp : Nat) :
    utf8_encode cp 4 =
      [(4080 ||| cp >>> 18) % 256, 128 ||| ((cp >>> 12) &&& 63),
        128 ||| ((cp >>> 6) &&& 63), 128 ||| (cp &&& 63)] := rfl

lemma utf8_encode_five (cp : Nat) :
    utf8_encode cp 5 =
      [(2040 ||| cp >>> 24) % 256, 128 ||| ((cp >>> 18) &&& 63),
        128 ||| ((cp >>> 12) &&& 63), 128 ||| ((cp >>> 6) &&& 63),
        128 ||| (cp &&& 63)] := rfl

lemma utf8_encode_six (cp : Nat) :
    utf8_encode cp 6 =
      [(1020 ||| cp >>> 30) % 256, 128 ||| ((cp >>> 24) &&& 63),
        128 ||| ((cp >>> 18) &&& 63), 128 ||| ((cp >>> 12) &&& 63),
        128 ||| ((cp >>> 6) &&& 63), 128 ||| (cp &&& 63)] := rfl

lemma utf8_decode_one (b0 : Nat) : utf8_decode [b0] 1 = b0 := rfl

lemma utf8_decode_two (b0 b1 : Nat) :
    utf8_decode [b0, b1] 2 =
      ((((b0 &&& 31) % 4294967296) <<< 6 ||| (b1 &&& 63)) % 4294967296) := rfl

lemma utf8_decode_three (b0 b1 b2 : Nat) :
    utf8_decode [b0, b1, b2] 3 =
      (((((b0 &&& 15) % 4294967296) <<< 6 ||| (b1 &&& 63)) % 4294967296) <<< 6
        ||| (b2 &&& 63)) % 4294967296 := rfl

lemma utf8_decode_four (b0 b1 b2 b3 : Nat) :
    utf8_decode [b0, b1, b2, b3] 4 =
      (((((((((((b0 &&& 7) % 4294967296) <<< 6) ||| (b1 &&& 63)) % 4294967296) <<< 6) ||| (b2 &&& 63)) % 4294967296) <<< 6) ||| (b3 &&& 63)) % 4294967296) := rfl

lemma utf8_decode_five (b0 b1 b2 b3 b4 : Nat) :
    utf8_decode [b0, b1, b2, b3, b4] 5 =
      ((((((((((((((b0 &&& 3) % 4294967296) <<< 6) ||| (b1 &&& 63)) % 4294967296) <<< 6) ||| (b2 &&& 63)) % 4294967296) <<< 6) ||| (b3 &&& 63)) % 4294967296) <<< 6) ||| (b4 &&& 63)) % 4294967296) := rfl

lemma utf8_decode_six (b0 b1 b2 b3 b4 b5 : Nat) :
    utf8_decode [b0, b1, b2, b3, b4, b5] 6 =
      (((((((((((((((((b0 &&& 1) % 4294967296) <<< 6) ||| (b1 &&& 63)) % 4294967296) <<< 6) ||| (b2 &&& 63)) % 4294967296) <<< 6) ||| (b3 &&& 63)) % 4294967296) <<< 6) ||| (b4 &&& 63)) % 4294967296) <<< 6) ||| (b5 &&& 63)) % 4294967296) := rfl

/-- C1: for every code point in `[0, 0x7FFFFFFF]`, encoding with the width
given by `get_codepoint_bytes(cp)` and decoding the produced bytes at that
same width returns the code point unchanged. -/
theorem utf8_encode_decode_roundtrip (cp : Nat) (h : cp ≤ 0x7FFFFFFF) :
    utf8_decode (utf8_encode cp (get_codepoint_bytes_of_cp cp))
      (get_codepoint_bytes_of_cp cp) = cp := by
  rcases Nat.lt_or_ge cp 0x80 with h1 | h1
  · have hw : get_codepoint_bytes_of_cp cp = 1 := by
      unfold get_codepoint_bytes_of_cp
      rw [if_pos (by omega)]
    rw [hw, utf8_encode_one, utf8_decode_one]
    omega
  rcases Nat.lt_or_ge cp 0x800 with h2 | h2
  · have hw : get_codepoint_bytes_of_cp cp = 2 := by
      unfold get_codepoint_bytes_of_cp
      rw [if_neg (by omega), if_pos (by omega)]
    have el : (16320 : Nat) ||| cp / 64 = 16320 + cp / 64 := by
      simpa using or_of_lt 255 (cp / 64) 6 (by omega)
    rw [hw, utf8_encode_two, utf8_decode_two]
    simp only [shr6, shl6, and63, and31, or64, or128, el]
    omega
  rcases Nat.lt_or_ge cp 0x10000 with h3 | h3
  · have hw : get_codepoint_bytes_of_cp cp = 3 := by
      unfold get_codepoint_bytes_of_cp
      rw [if_neg (by omega), if_neg (by omega), if_pos (by omega)]
    have el : (8160 : Nat) ||| cp / 4096 = 8160 + cp / 4096 := by
      simpa using or_of_lt 255 (cp / 4096) 5 (by omega)
    rw [hw, utf8_encode_three, utf8_decode_three]
    simp only [shr6, shr12, shl6, and63, and15, or64, or128, el]
    omega
  rcases Nat.lt_or_ge cp 0x200000 with h4 | h4
  · have hw : get_codepoint_bytes_of_cp cp = 4 := by
      unfold get_codepoint_bytes_of_cp
      rw [if_neg (by omega), if_neg (by omega), if_neg (by omega),
        if_pos (by omega)]
    have el : (4080 : Nat) ||| cp / 262144 = 4080 + cp / 262144 := by
      simpa using or_of_lt 255 (cp / 262144) 4 (by omega)
    rw [hw, utf8_encode_four, utf8_decode_four]
    simp only [shr6, shr12, shr18, shl6, and63, and7, or64, or128, el]
    omega
  rcases Nat.lt_or_ge cp 0x4000000 with h5 | h5
  · have hw : get_codepoint_bytes_of_cp cp = 5 := by
      unfold get_codepoint_bytes_of_cp
      rw [if_neg (by omega), if_neg (by omega), if_neg (by omega),
        if_neg (by omega), if_pos (by omega)]
    have el : (2040 : Nat) ||| cp / 16777216 = 2040 + cp / 16777216 := by
      simpa using or_of_lt 255 (cp / 16777216) 3 (by omega)
    rw [hw, utf8_encode_five, utf8_decode_five]
    simp only [shr6, shr12, shr18, shr24, shl6, and63, and3, or64, or128, el]
    omega
  · have hw : get_codepoint_bytes_of_cp cp = 6 := by
      unfold get_codepoint_bytes_of_cp
      rw [if_neg (by omega), if_neg (by omega), if_neg (by omega),
        if_neg (by omega), if_neg (by omega), if_pos (by omega)]
    have el : (1020 : Nat) ||| cp / 1073741824 = 1020 + cp / 1073741824 := by
      simpa using or_of_lt 255 (cp / 1073741824) 2 (by omega)
    rw [hw, utf8_encode_six, utf8_decode_six]
    simp only [shr6, shr12, shr18, shr24, shr30, shl6, and63, and1, or64,
      or128, el]
    omega

/-- Witness for C1 at the code point `0x4E2D` (spec scenario A). -/
theorem utf8_encode_decode_roundtrip_witness :
    (0x4E2D : Nat) ≤ 0x7FFFFFFF ∧
      utf8_decode (utf8_encode 0x4E2D (get_codepoint_bytes_of_cp 0x4E2D))
        (get_codepoint_bytes_of_cp 0x4E2D) = 0x4E2D :=
  ⟨by decide, utf8_encode_decode_roundtrip 0x4E2D (by decide)⟩

end RoundTrip

section PositionMapping

/-- Model of `get_num_bytes_of_utf8_char(const char* str, size_t len)`; the
list holds exactly the `len` bytes remaining in the buffer.  The loop counts
1 plus the number of continuation bytes `10xxxxxx` that immediately follow
the first byte (stopping at the end of the buffer). -/
def get_num_bytes_of_utf8_char (s : List Nat) : Nat :=
  1 + ((s.drop 1).takeWhile (fun b => b &&& 0xC0 == 0x80)).length

lemma get_num_bytes_pos (s : List Nat) : 1 ≤ get_num_bytes_of_utf8_char s := by
  unfold get_num_bytes_of_utf8_char
  omega

lemma get_num_bytes_le (b : Nat) (rest : List Nat) :
    get_num_bytes_of_utf8_char (b :: rest) ≤ rest.length + 1 := by
  unfold get_num_bytes_of_utf8_char
  simp only [List.drop_one, List.tail_cons]
  have h := (List.takeWhile_sublist
    (l := rest) (fun x => x &&& 0xC0 == 0x80)).length_le
  omega

/-- Model of the loop in `byte2index(const char* str, size_t len, size_t
bytes)`.  The walk advances one character at a time; the fuel (first
argument) only bounds the number of iterations and is set to the byte count
by the wrapper, which one byte per step at least always respects.  An empty
suffix is exactly the loop exit `cur_bytes == len`, returning `npos`. -/
def byte2indexAux : Nat → List Nat → Nat → Nat → Nat → Nat
  | _, [], _, _, _ => npos
  | 0, _ :: _, _, _, _ => npos
  | fuel + 1, b :: rest, bytes, cur_bytes, cur_index =>
    if cur_bytes = bytes then cur_index
    else if bytes < cur_bytes then npos
    else
      byte2indexAux fuel
        ((b :: rest).drop (get_num_bytes_of_utf8_char (b :: rest))) bytes
        (cur_bytes + get_num_bytes_of_utf8_char (b :: rest)) (cur_index + 1)

/-- Model of `byte2index(const char* str, size_t len, size_t bytes)`. -/
def byte2index (s : List Nat) (bytes : Nat) : Nat :=
  byte2indexAux s.length s bytes 0 0

/-- Model of the loop in `index2byte(const char* str, size_t len, size_t
index)`, with the same fuel convention as `byte2indexAux`. -/
def index2byteAux : Nat → List Nat → Nat → Nat → Nat → Nat
  | _, [], _, _, _ => npos
  | 0, _ :: _, _, _, _ => npos
  | fuel + 1, b :: rest, index, cur_bytes, cur_index =>
    if cur_index = index then cur_bytes
    else
      index2byteAux fuel
        ((b :: rest).drop (get_num_bytes_of_utf8_char (b :: rest))) index
        (cur_bytes + get_num_bytes_of_utf8_char (b :: rest)) (cur_index + 1)

/-- Model of `index2byte(const char* str, size_t len, size_t index)`. -/
def index2byte (s : List Nat) (index : Nat) : Nat :=
  index2byteAux s.length s index 0 0

/-- Byte offsets at which the characters of `s` start: the `cur_bytes`
values visited by the walk shared by `byte2index` and `index2byte`. -/
def charStartsAux : Nat → List Nat → Nat → List Nat
  | _, [], _ => []
  | 0, _ :: _, _ => []
  | fuel + 1, b :: rest, off =>
    off :: charStartsAux fuel
      ((b :: rest).drop (get_num_bytes_of_utf8_char (b :: rest)))
      (off + get_num_bytes_of_utf8_char (b :: rest))

/-- Byte offsets of the character starts of `s`, starting at offset 0. -/
def charStarts (s : List Nat) : List Nat := charStartsAux s.length s 0

lemma charStartsAux_ge :
    ∀ (fuel : Nat) (s : List Nat) (off j o : Nat),
      (charStartsAux fuel s off)[j]? = some o → off ≤ o := by
  intro fuel
  induction fuel with
  | zero =>
    intro s off j o h
    cases s <;> simp [charStartsAux] at h
  | succ fuel ih =>
    intro s off j o h
    cases s with
    | nil => simp [charStartsAux] at h
    | cons b rest =>
      rw [charStartsAux] at h
      cases j with
      | zero =>
        simp at h
        omega
      | succ j =>
        simp only [List.getElem?_cons_succ] at h
        have := ih _ _ j o h
        have := get_num_bytes_pos (b :: rest)
        omega

lemma byte2indexAux_spec :
    ∀ fuel s off idx j o, (charStartsAux fuel s off)[j]? = some o →
      byte2indexAux fuel s o off idx = idx + j := by
  intro fuel
  induction fuel with
  | zero =>
    intro s off idx j o h
    cases s <;> simp [charStartsAux] at h
  | succ fuel ih =>
    intro s off idx j o h
    cases s with
    | nil => simp [charStartsAux] at h
    | cons b rest =>
      rw [charStartsAux] at h
      cases j with
      | zero =>
        simp at h
        rw [byte2indexAux, if_pos h]
        omega
      | succ j =>
        simp only [List.getElem?_cons_succ] at h
        have hge := charStartsAux_ge fuel _ _ j o h
        have hpos := get_num_bytes_pos (b :: rest)
        rw [byte2indexAux, if_neg (by omega), if_neg (by omega)]
        rw [ih _ _ (idx + 1) j o h]
        omega

lemma index2byteAux_spec :
    ∀ fuel s off idx j o, (charStartsAux fuel s off)[j]? = some o →
      index2byteAux fuel s (idx + j) off idx = o := by
  intro fuel
  induction fuel with
  | zero =>
    intro s off idx j o h
    cases s <;> simp [charStartsAux] at h
  | succ fuel ih =>
    intro s off idx j o h
    cases s with
    | nil => simp [charStartsAux] at h
    | cons b rest =>
      rw [charStartsAux] at h
      cases j with
      | zero =>
        simp at h
        rw [index2byteAux, if_pos (by omega)]
        omega
      | succ j =>
        simp only [List.getElem?_cons_succ] at h
        rw [index2byteAux, if_neg (by omega)]
        have : idx + (j + 1) = (idx + 1) + j := by omega
        rw [this]
        exact ih _ _ (idx + 1) j o h

/-- C7: for every byte sequence and every byte offset `o` that is the first
byte of the `j`-th character, `byte2index` maps `o` to the character index
`j` and `index2byte` maps `j` back to `o`. -/
theorem byte2index_index2byte_roundtrip (s : List Nat) (j o : Nat)
    (h : (charStarts s)[j]? = some o) :
    byte2index s o = j ∧ index2byte s j = o := by
  constructor
  · have := byte2indexAux_spec s.length s 0 0 j o h
    simpa [byte2index] using this
  · have := index2byteAux_spec s.length s 0 0 j o h
    simpa [index2byte] using this

/-- Witness for C7 on the encoding of `"a中b"` (spec scenario B): byte offset
4 is the start of character 2. -/
theorem byte2index_index2byte_roundtrip_witness :
    (charStarts [0x61, 0xE4, 0xB8, 0xAD, 0x62])[2]? = some 4 ∧
      byte2index [0x61, 0xE4, 0xB8, 0xAD, 0x62] 4 = 2 ∧
      index2byte [0x61, 0xE4, 0xB8, 0xAD, 0x62] 2 = 4 := by
  refine ⟨by decide, ?_⟩
  have h := byte2index_index2byte_roundtrip [0x61, 0xE4, 0xB8, 0xAD, 0x62] 2 4
    (by decide)
  exact ⟨h.1, h.2⟩

end PositionMapping

section OutOfRangeLookups

/-- Model of the loop of `get_characters_number(const char* str, size_t
len)`: number of characters covered by the walk, with the usual fuel
convention. -/
def get_characters_numberAux : Nat → List Nat → Nat
  | _, [] => 0
  | 0, _ :: _ => 0
  | fuel + 1, b :: rest =>
    get_characters_numberAux fuel
      ((b :: rest).drop (get_num_bytes_of_utf8_char (b :: rest))) + 1

/-- Model of `get_characters_number(const char* str, size_t len)`. -/
def get_characters_number (s : List Nat) : Nat :=
  get_characters_numberAux s.length s

/-- Model of the loop of `decode_at(const char* str, size_t len, size_t
index)`: on reaching the requested character index, decode it; at the end of
the buffer return code point 0. -/
def decode_atAux : Nat → List Nat → Nat → Nat → Nat
  | _, [], _, _ => 0
  | 0, _ :: _, _, _ => 0
  | fuel + 1, b :: rest, index, cur_index =>
    if cur_index = index then
      utf8_decode (b :: rest) (get_num_bytes_of_utf8_char (b :: rest))
    else
      decode_atAux fuel
        ((b :: rest).drop (get_num_bytes_of_utf8_char (b :: rest))) index
        (cur_index + 1)

/-- Model of `decode_at(const char* str, size_t len, size_t index)`. -/
def decode_at (s : List Nat) (index : Nat) : Nat :=
  decode_atAux s.length s index 0

/-- Model of the loop of `string_at(str, index)`: on reaching the requested
character index, return its bytes (`str.substr(cur_bytes, num_bytes)`); at
the end of the buffer return the empty string. -/
def string_atAux : Nat → List Nat → Nat → Nat → List Nat
  | _, [], _, _ => []
  | 0, _ :: _, _, _ => []
  | fuel + 1, b :: rest, index, cur_index =>
    if cur_index = index then
      (b :: rest).take (get_num_bytes_of_utf8_char (b :: rest))
    else
      string_atAux fuel
        ((b :: rest).drop (get_num_bytes_of_utf8_char (b :: rest))) index
        (cur_index + 1)

/-- Model of `string_at(const std::string& str, size_t index)`. -/
def string_at (s : List Nat) (index : Nat) : List Nat :=
  string_atAux s.length s index 0

/-- Model of the loop of the free `substr(str, index, n)`.  `orig` is the
whole string (the C code slices `str` by byte offsets), the list argument is
the remaining suffix.  Reaching the end of the buffer (or running out of
fuel, which the wrapper's choice of fuel prevents) is the loop exit:
`if (cur_index <= index) return empty; return str.substr(start_bytes)`. -/
def substrAux : Nat → List Nat → List Nat → Nat → Nat → Nat → Nat → Nat →
    List Nat
  | _, orig, [], index, _, cur_index, _, start_bytes =>
    if cur_index ≤ index then [] else orig.drop start_bytes
  | 0, orig, _ :: _, index, _, cur_index, _, start_bytes =>
    if cur_index ≤ index then [] else orig.drop start_bytes
  | fuel + 1, orig, b :: rest, index, n, cur_index, cur_bytes, start_bytes =>
    let nb := get_num_bytes_of_utf8_char (b :: rest)
    let sb := if cur_index = index then cur_bytes else start_bytes
    if index < cur_index ∧ cur_index - index = n then
      (orig.drop sb).take (cur_bytes - sb)
    else
      substrAux fuel orig ((b :: rest).drop nb) index n (cur_index + 1)
        (cur_bytes + nb) sb

/-- Model of the free function `substr(const std::string& str, size_t index,
size_t n)`. -/
def substr (s : List Nat) (index n : Nat) : List Nat :=
  if n = 0 then [] else substrAux s.length s s index n 0 0 0

lemma decode_atAux_out :
    ∀ fuel s index cur, get_characters_numberAux fuel s + cur ≤ index →
      decode_atAux fuel s index cur = 0 := by
  intro fuel
  induction fuel with
  | zero =>
    intro s index cur h
    cases s <;> rfl
  | succ fuel ih =>
    intro s index cur h
    cases s with
    | nil => rfl
    | cons b rest =>
      rw [get_characters_numberAux] at h
      rw [decode_atAux, if_neg (by omega)]
      exact ih _ index (cur + 1) (by omega)

lemma string_atAux_out :
    ∀ fuel s index cur, get_characters_numberAux fuel s + cur ≤ index →
      string_atAux fuel s index cur = [] := by
  intro fuel
  induction fuel with
  | zero =>
    intro s index cur h
    cases s <;> rfl
  | succ fuel ih =>
    intro s index cur h
    cases s with
    | nil => rfl
    | cons b rest =>
      rw [get_characters_numberAux] at h
      rw [string_atAux, if_neg (by omega)]
      exact ih _ index (cur + 1) (by omega)

lemma substrAux_out :
    ∀ fuel orig s index n cur_index cur_bytes start_bytes,
      get_characters_numberAux fuel s + cur_index ≤ index →
      substrAux fuel orig s index n cur_index cur_bytes start_bytes = [] := by
  intro fuel
  induction fuel with
  | zero =>
    intro orig s index n ci cb sb h
    cases s with
    | nil =>
      rw [substrAux, if_pos (by simpa [get_characters_numberAux] using h)]
    | cons b rest =>
      rw [substrAux, if_pos (by simp [get_characters_numberAux] at h; omega)]
  | succ fuel ih =>
    intro orig s index n ci cb sb h
    cases s with
    | nil =>
      rw [substrAux, if_pos (by simpa [get_characters_numberAux] using h)]
    | cons b rest =>
      rw [get_characters_numberAux] at h
      simp only [substrAux]
      rw [if_neg (by omega)]
      exact ih orig _ index n (ci + 1) _ _ (by omega)

/-- C10: for every byte string and every character index at or past the
string's character count, `decode_at` returns code point 0, and `string_at`
and the free `substr` return the empty string; all three return normally. -/
theorem out_of_range_lookups_return_defaults (s : List Nat) (index : Nat)
    (h : get_characters_number s ≤ index) :
    decode_at s index = 0 ∧ string_at s index = [] ∧
      ∀ n, substr s index n = [] := by
  refine ⟨?_, ?_, ?_⟩
  · exact decode_atAux_out s.length s index 0 (by simpa [get_characters_number] using h)
  · exact string_atAux_out s.length s index 0 (by simpa [get_characters_number] using h)
  · intro n
    unfold substr
    rcases eq_or_ne n 0 with rfl | hn
    · rw [if_pos rfl]
    · rw [if_neg hn]
      exact substrAux_out s.length s s index n 0 0 0
        (by simpa [get_characters_number] using h)

/-- Witness for C10 on the encoding of `"a中b"` (3 characters) at index 3. -/
theorem out_of_range_lookups_return_defaults_witness :
    get_characters_number [0x61, 0xE4, 0xB8, 0xAD, 0x62] ≤ 3 ∧
      decode_at [0x61, 0xE4, 0xB8, 0xAD, 0x62] 3 = 0 ∧
      string_at [0x61, 0xE4, 0xB8, 0xAD, 0x62] 3 = [] ∧
      substr [0x61, 0xE4, 0xB8, 0xAD, 0x62] 3 5 = [] := by
  have h := out_of_range_lookups_return_defaults [0x61, 0xE4, 0xB8, 0xAD, 0x62]
    3 (by decide)
  exact ⟨by decide, h.1, h.2.1, h.2.2 5⟩

end OutOfRangeLookups

section UStringModel

/-- Model of `ustring<char32_t>`: allocated capacity, length, and the backing
allocation as a list of 32-bit values.  An allocated buffer has `cap + 1`
slots (`malloc((capacity + 1) * sizeof(_CodeT))`); the empty list models the
null pointer of a default-constructed or moved-from string. -/
structure UString where
  cap : Nat
  len : Nat
  buf : List Nat
deriving DecidableEq

/-- Errors thrown by `ustring` operations: `std::out_of_range` from
`_M_check`-style position checks and `std::length_error` from
`_M_check_length` / `_S_capacity`. -/
inductive UErr where
  | out_of_range
  | length_error
deriving DecidableEq

instance {ε α : Type} [DecidableEq ε] [DecidableEq α] :
    DecidableEq (Except ε α) := fun x y =>
  match x, y with
  | .error a, .error b =>
    if h : a = b then isTrue (by rw [h]) else isFalse (by simp [h])
  | .ok a, .ok b =>
    if h : a = b then isTrue (by rw [h]) else isFalse (by simp [h])
  | .error _, .ok _ => isFalse (by simp)
  | .ok _, .error _ => isFalse (by simp)

/-- Model of `static const size_t max_size = npos >> 2`. -/
def max_size : Nat := npos >>> 2

/-- Wrapping `size_t` subtraction `a - b` (both arguments below `2^64` at
every use). -/
def usub (a b : Nat) : Nat := (a + 2 ^ 64 - b) % 2 ^ 64

/-- Write the values `vs` into `buf` starting at slot `d` (all call sites
write in bounds). -/
def writeAt (buf : List Nat) (d : Nat) (vs : List Nat) : List Nat :=
  buf.take d ++ vs ++ buf.drop (d + vs.length)

/-- Model of `_M_realloc(n)`: the allocation is resized to `n + 1` slots,
contents preserved up to the new size; slots beyond the old contents are
uninitialized and modelled as 0 (no modelled operation reads them before
writing them). -/
def reallocBuf (buf : List Nat) (n : Nat) : List Nat :=
  buf.take (n + 1) ++ List.replicate (n + 1 - (buf.take (n + 1)).length) 0

/-- Value a 32-bit slot reads back after
`memset(d, c, n * sizeof(_CodeT))`: every byte of the slot holds
`(unsigned char)c`, i.e. the low byte of `c` repeated four times (on any
endianness). -/
def memsetVal (c : Nat) : Nat := (c % 256) * 0x01010101

/-- Model of `_M_assign(_CodeT* d, size_type n, _CodeT c)` as the list of
values the `n` slots hold afterwards: a single slot is assigned `c`
directly (`*d = c`), larger fills go through `memset`. -/
def fillVals (n c : Nat) : List Nat :=
  if n = 1 then [c] else List.replicate n (memsetVal c)

/-- Model of `_M_set_length(n)`: store the length and write the sentinel
`_M_ptr[n] = _CodeT(0)`. -/
def set_length (s : UString) (n : Nat) : UString :=
  ⟨s.cap, n, writeAt s.buf n [0]⟩

/-- Model of `_S_capacity(size_type& capacity, size_type old_capacity)`:
`std::length_error` beyond `max_size`, else apply the doubling rule clamped
to `max_size`. -/
def _S_capacity (capacity old_capacity : Nat) : Except UErr Nat :=
  if capacity > max_size then .error .length_error
  else if capacity > old_capacity ∧ capacity < 2 * old_capacity then
    .ok (if 2 * old_capacity > max_size then max_size else 2 * old_capacity)
  else .ok capacity

/-- Model of `reserve(size_type res)`: clamp up to the current length, and
when the adjusted request differs from the current capacity run
`_S_capacity`, `_M_realloc`, `_M_capacity`. -/
def reserve (s : UString) (res : Nat) : Except UErr UString :=
  let r := if res < s.len then s.len else res
  if r ≠ s.cap then
    (_S_capacity r s.cap).map fun r' =>
      (⟨r', s.len, reallocBuf s.buf r'⟩ : UString)
  else .ok s

/-- Model of `_M_replace(pos, n1, arr, n2)` over the replacement values `vs`
(so `n2 = vs.length`; the fill overload passes `fillVals`).  The leading
guard is `_M_check_length(n1, n2)` with its wrapping `size_t` arithmetic;
as in the source, an equal-size replace copies in place without
`_M_set_length`, otherwise the tail is moved (`_S_move`, overlap-safe), the
values are copied in and the new length is set. -/
def _M_replace (s : UString) (pos n1 : Nat) (vs : List Nat) :
    Except UErr UString :=
  if usub max_size (usub s.len n1) < vs.length then .error .length_error
  else if n1 = vs.length then .ok ⟨s.cap, s.len, writeAt s.buf pos vs⟩
  else
    (if s.len + vs.length - n1 > s.cap then reserve s (s.len + vs.length - n1)
     else .ok s).map fun t =>
      set_length
        ⟨t.cap, t.len,
          writeAt
            (writeAt t.buf (pos + vs.length)
              ((t.buf.drop (pos + n1)).take (t.len - pos - n1)))
            pos vs⟩
        (s.len + vs.length - n1)

/-- Model of `append(size_type n, _CodeT c)`; the leading guard inlines
`_M_check_length(0, n)`. -/
def append_fill (s : UString) (n c : Nat) : Except UErr UString :=
  if n = 0 then .ok s
  else if usub max_size (usub s.len 0) < n then .error .length_error
  else
    (if n + s.len > s.cap then reserve s (n + s.len) else .ok s).map fun t =>
      set_length ⟨t.cap, t.len, writeAt t.buf t.len (fillVals n c)⟩
        (n + s.len)

/-- Model of `append(const _CodeT* arr, size_type n)` with `n = arr.length`. -/
def append_arr (s : UString) (arr : List Nat) : Except UErr UString :=
  if arr.length = 0 then .ok s
  else if usub max_size (usub s.len 0) < arr.length then .error .length_error
  else
    (if arr.length + s.len > s.cap then reserve s (arr.length + s.len)
     else .ok s).map fun t =>
      set_length ⟨t.cap, t.len, writeAt t.buf t.len arr⟩
        (arr.length + s.len)

/-- Model of `push_back(_CodeT c)`. -/
def push_back (s : UString) (c : Nat) : Except UErr UString :=
  (if s.len + 1 > s.cap then
    (_S_capacity (s.len + 1) s.cap).map fun r' =>
      (⟨r', s.len, reallocBuf s.buf r'⟩ : UString)
  else .ok s).map fun t =>
    set_length ⟨t.cap, t.len, writeAt t.buf t.len [c]⟩ (t.len + 1)

/-- Model of `assign(size_type n, _CodeT c)`: grow through `reserve` when
`n` exceeds the capacity, shrink the allocation to `n << 1` when that is
below the capacity, fill, and set the length. -/
def assign_fill (s : UString) (n c : Nat) : Except UErr UString :=
  (if n > s.cap then reserve s n
   else if n <<< 1 < s.cap then
     .ok ⟨n <<< 1, s.len, reallocBuf s.buf (n <<< 1)⟩
   else .ok s).map fun t =>
    set_length
      ⟨t.cap, t.len, if n ≠ 0 then writeAt t.buf 0 (fillVals n c) else t.buf⟩
      n

/-- Model of `assign(const _CodeT* arr, size_type n)` with `n = arr.length`. -/
def assign_arr (s : UString) (arr : List Nat) : Except UErr UString :=
  (if arr.length > s.cap then reserve s arr.length
   else if arr.length <<< 1 < s.cap then
     .ok ⟨arr.length <<< 1, s.len, reallocBuf s.buf (arr.length <<< 1)⟩
   else .ok s).map fun t =>
    set_length
      ⟨t.cap, t.len,
        if arr.length ≠ 0 then writeAt t.buf 0 arr else t.buf⟩
      arr.length

/-- Model of `_M_limit(pos, off)`. -/
def _M_limit (s : UString) (pos off : Nat) : Nat :=
  if off < s.len - pos then off else s.len - pos

/-- Model of `insert(size_type pos, size_type n, _CodeT c)`:
`_M_replace(_M_check(pos), 0, n, c)`; the `_M_check` out-of-range throw is
the leading guard. -/
def insert_fill (s : UString) (pos n c : Nat) : Except UErr UString :=
  if s.len < pos then .error .out_of_range
  else _M_replace s pos 0 (fillVals n c)

/-- Model of `replace(size_type pos, size_type n1, const _CodeT* arr,
size_type n2)` with `n2 = arr.length`: `_M_replace(_M_check(pos),
_M_limit(pos, n1), arr, n2)`. -/
def replace (s : UString) (pos n1 : Nat) (arr : List Nat) :
    Except UErr UString :=
  if s.len < pos then .error .out_of_range
  else _M_replace s pos (_M_limit s pos n1) arr

/-- Model of `_M_erase(pos, n)`: move the tail down (`_S_move`,
overlap-safe, skipped when either length is zero) and set the new length. -/
def _M_erase (s : UString) (pos n : Nat) : UString :=
  set_length
    ⟨s.cap, s.len,
      if s.len - pos - n ≠ 0 ∧ n ≠ 0 then
        writeAt s.buf pos ((s.buf.drop (pos + n)).take (s.len - pos - n))
      else s.buf⟩
    (s.len - n)

/-- Model of `erase(size_type pos, size_type n)`; `_M_check(pos)` is the
leading guard. -/
def erase (s : UString) (pos n : Nat) : Except UErr UString :=
  if s.len < pos then .error .out_of_range
  else if n = npos then .ok (set_length s pos)
  else if n ≠ 0 then .ok (_M_erase s pos (_M_limit s pos n))
  else .ok s

/-- Model of `clear()`. -/
def clear (s : UString) : UString := set_length s 0

/-- Model of `pop_back()` (`_M_erase(_M_len - 1, 1)`; asserted nonempty in
the source). -/
def pop_back (s : UString) : UString := _M_erase s (s.len - 1) 1

/-- Model of `resize(size_type n, _CodeT c)`. -/
def resize (s : UString) (n c : Nat) : Except UErr UString :=
  if s.len < n then append_fill s (n - s.len) c
  else if n < s.len then .ok (set_length s n)
  else .ok s

/-- Model of the fill constructor `ustring(size_type n, _CodeT c)`:
capacity `n << 1`, a fresh allocation (uninitialized slots modelled as 0),
`_M_assign(_M_ptr, n, c)` and `_M_set_length(n)`. -/
def ustring_fill (n c : Nat) : UString :=
  set_length
    ⟨n <<< 1, 0, writeAt (List.replicate (n <<< 1 + 1) 0) 0 (fillVals n c)⟩
    n

/-- Model of the move constructor `ustring(ustring&& str)`: the new object
takes the pointer, capacity and length; the source is nulled out
(`_M_data(nullptr); _M_capacity(0); _M_length(0)`).  Result:
(destination, moved-from source). -/
def move_construct (s : UString) : UString × UString :=
  (⟨s.cap, s.len, s.buf⟩, ⟨0, 0, []⟩)

/-- Model of move assignment `operator=(ustring&& str)`, which is
`this->swap(str)`: the two objects exchange their entire state.  Result:
(new destination, moved-from source). -/
def move_assign (dst src : UString) : UString × UString := (src, dst)

/-- Little-endian byte serialization of a 32-bit slot, as read by `memcmp`
on a little-endian platform (the modelled target). -/
def leBytes (x : Nat) : List Nat :=
  [x % 256, x / 256 % 256, x / 65536 % 256, x / 16777216 % 256]

/-- Bytes of an array of 32-bit slots in memory order (little-endian). -/
def serializeLE (xs : List Nat) : List Nat := (xs.map leBytes).flatten

/-- Sign-accurate model of `memcmp` on two equal-length byte sequences:
the difference of the first differing bytes, 0 if none. -/
def memcmpBytes : List Nat → List Nat → Int
  | a :: as, b :: bs => if a = b then memcmpBytes as bs else (a : Int) - b
  | _, _ => 0

/-- Model of `compare(const _CodeT* arr, size_type n)` with
`n = arr.length`: `memcmp` over `min n len` slots' raw bytes, then the
length tie-break. -/
def compare_codet (s : UString) (arr : List Nat) : Int :=
  let size := min arr.length s.len
  let ret := memcmpBytes (serializeLE (s.buf.take size))
    (serializeLE (arr.take size))
  if ret = 0 ∧ arr.length ≠ s.len then
    (if arr.length < s.len then 1 else -1)
  else ret

/-- C2 failure: the fill constructor `ustring<char32_t>(2, 1)` length is
right, but `_M_assign` fills with `memset`, so each slot reads back
`0x01010101`, not the code point 1 the claim requires. -/
theorem ustring_fill_memset_bug :
    (ustring_fill 2 1).len = 2 ∧
      (ustring_fill 2 1).buf[0]? = some 0x01010101 ∧
      (ustring_fill 2 1).buf[1]? = some 0x01010101 ∧
      (ustring_fill 2 1).buf[0]? ≠ some 1 := by decide

/-- C2 failure through `append`: appending 2 copies of code point 1 to an
empty string stores `0x01010101` in the appended slots. -/
theorem append_fill_memset_bug :
    append_fill ⟨0, 0, [0]⟩ 2 1 = .ok ⟨2, 2, [0x01010101, 0x01010101, 0]⟩ ∧
      (0x01010101 : Nat) ≠ 1 := by decide

/-- C3 failure: with 32-bit code points on a little-endian platform,
`compare(const _CodeT*, size_type)` compares raw bytes with `memcmp`, so a
string holding code point `0x100` compares *less* than one holding `0x1`,
although the first (and only) code points differ with `0x100 > 0x1` — the
sign is not decided by the numeric code-point order. -/
theorem compare_codet_memcmp_bug :
    compare_codet ⟨1, 1, [0x100, 0]⟩ [1] = -1 ∧ (0x100 : Nat) > 1 := by decide

/-- C9 counterexample: move *assignment* is a swap, so when the destination
held a 1-element string, the moved-from source ends with length 1 and a
non-null buffer — not the empty state the claim requires after any move. -/
theorem move_assign_source_not_empty :
    ((move_assign ⟨1, 1, [5, 0]⟩ ⟨1, 1, [7, 0]⟩).2.len = 1 ∧
      (move_assign ⟨1, 1, [5, 0]⟩ ⟨1, 1, [7, 0]⟩).2.buf ≠ []) ∧
      ¬ ((move_assign ⟨1, 1, [5, 0]⟩ ⟨1, 1, [7, 0]⟩).2.len = 0) := by decide

/-- C9 (amended): move construction leaves the source in the empty state
(null pointer, zero length, zero capacity); move assignment is implemented
as `swap`, so the source takes over the destination's previous state (and is
empty exactly when the destination was). -/
theorem move_semantics (s d : UString) :
    (move_construct s).1 = s ∧ (move_construct s).2 = ⟨0, 0, []⟩ ∧
      move_assign d s = (s, d) :=
  ⟨rfl, rfl, rfl⟩

/-- Well-formedness of an allocated `ustring`: the backing allocation has
`cap + 1` slots, `len ≤ cap ≤ max_size`, and the sentinel slot `[len]`
holds 0 — the state every constructor establishes and every mutator
maintains. -/
def Wf (s : UString) : Prop :=
  s.buf.length = s.cap + 1 ∧ s.len ≤ s.cap ∧ s.cap ≤ max_size ∧
    s.buf[s.len]? = some 0

lemma max_size_eq : max_size = 4611686018427387903 := by decide

lemma fillVals_length (n c : Nat) : (fillVals n c).length = n := by
  unfold fillVals
  split_ifs with h
  · simp [h]
  · simp

lemma writeAt_length {buf vs : List Nat} {d : Nat}
    (h : d + vs.length ≤ buf.length) :
    (writeAt buf d vs).length = buf.length := by
  simp only [writeAt, List.length_append, List.length_take, List.length_drop]
  omega

lemma writeAt_getElem_ge {buf vs : List Nat} {d i : Nat} (hd : d ≤ buf.length)
    (hi : d + vs.length ≤ i) : (writeAt buf d vs)[i]? = buf[i]? := by
  unfold writeAt
  have ht : (buf.take d).length = d := by
    simp [List.length_take, Nat.min_eq_left hd]
  rw [List.getElem?_append_right (by simp [List.length_append, ht]; omega)]
  rw [List.getElem?_drop]
  congr 1
  simp only [List.length_append, ht]
  omega

lemma writeAt_single_getElem {buf : List Nat} {n v : Nat} (h : n < buf.length) :
    (writeAt buf n [v])[n]? = some v := by
  unfold writeAt
  have ht : (buf.take n).length = n := by
    simp [List.length_take, Nat.min_eq_left (Nat.le_of_lt h)]
  rw [List.append_assoc]
  rw [List.getElem?_append_right (le_of_eq ht)]
  rw [ht, Nat.sub_self]
  simp

lemma set_length_wf {s : UString} {n : Nat} (hbuf : s.buf.length = s.cap + 1)
    (hn : n ≤ s.cap) (hmax : s.cap ≤ max_size) : Wf (set_length s n) := by
  refine ⟨?_, hn, hmax, ?_⟩
  · show (writeAt s.buf n [0]).length = s.cap + 1
    rw [writeAt_length (by simp; omega)]
    exact hbuf
  · exact writeAt_single_getElem (by omega)

lemma reallocBuf_length (buf : List Nat) (n : Nat) :
    (reallocBuf buf n).length = n + 1 := by
  simp only [reallocBuf, List.length_append, List.length_replicate,
    List.length_take]
  omega

lemma _S_capacity_ok {c oc r : Nat} (h : _S_capacity c oc = .ok r) :
    c ≤ r ∧ r ≤ max_size := by
  unfold _S_capacity at h
  split_ifs at h
  all_goals simp only [reduceCtorEq, Except.ok.injEq] at h
  all_goals omega

lemma reserve_ok {s : UString} {res : Nat} {t : UString}
    (hwf : Wf s) (h : reserve s res = .ok t) :
    t.len = s.len ∧ s.len ≤ t.cap ∧ res ≤ t.cap ∧ t.cap ≤ max_size ∧
      t.buf.length = t.cap + 1 := by
  obtain ⟨hbuf, hlen, hcap, _⟩ := hwf
  simp only [reserve] at h
  set r := if res < s.len then s.len else res with hr
  have hrge : s.len ≤ r ∧ res ≤ r := by
    rw [hr]
    split_ifs <;> omega
  split_ifs at h with hne
  · cases hsc : _S_capacity r s.cap with
    | error e => rw [hsc] at h; simp [Except.map] at h
    | ok r' =>
      rw [hsc] at h
      simp only [Except.map, Except.ok.injEq] at h
      obtain ⟨hc, hm⟩ := _S_capacity_ok hsc
      subst h
      exact ⟨rfl, show s.len ≤ r' by omega, show res ≤ r' by omega, hm,
        reallocBuf_length s.buf r'⟩
  · simp only [Except.ok.injEq] at h
    subst h
    exact ⟨rfl, hlen, by omega, hcap, hbuf⟩

lemma map_okE {α β : Type} {f : α → β} {x : Except UErr α} {t : β}
    (h : x.map f = .ok t) : ∃ u, x = .ok u ∧ f u = t := by
  cases x with
  | error e => simp [Except.map] at h
  | ok u => exact ⟨u, rfl, by simpa [Except.map] using h⟩

lemma grow_step {s : UString} {need : Nat} {u : UString} (hwf : Wf s)
    (h : (if need > s.cap then reserve s need else .ok s) = .ok u) :
    u.len = s.len ∧ need ≤ u.cap ∧ s.len ≤ u.cap ∧ u.cap ≤ max_size ∧
      u.buf.length = u.cap + 1 := by
  split_ifs at h with hg
  · obtain ⟨h1, h2, h3, h4, h5⟩ := reserve_ok hwf h
    exact ⟨h1, h3, h2, h4, h5⟩
  · simp only [Except.ok.injEq] at h
    subst h
    exact ⟨rfl, by omega, hwf.2.1, hwf.2.2.1, hwf.1⟩

lemma shl1 (a : Nat) : a <<< 1 = 2 * a := by
  rw [Nat.shiftLeft_eq, pow_one]
  ring

lemma append_fill_wf {s : UString} {n c : Nat} {t : UString} (hwf : Wf s)
    (h : append_fill s n c = .ok t) : Wf t := by
  unfold append_fill at h
  rcases eq_or_ne n 0 with rfl | h0
  · rw [if_pos rfl] at h
    simp only [Except.ok.injEq] at h
    subst h
    exact hwf
  rw [if_neg h0] at h
  rcases Nat.lt_or_ge (usub max_size (usub s.len 0)) n with hchk | hchk
  · rw [if_pos hchk] at h
    simp at h
  · rw [if_neg (not_lt.2 hchk)] at h
    obtain ⟨u, hu, hf⟩ := map_okE h
    obtain ⟨hul, hun, husl, hucap, hubuf⟩ := grow_step hwf hu
    subst hf
    apply set_length_wf
    · show (writeAt u.buf u.len (fillVals n c)).length = u.cap + 1
      rw [writeAt_length (by rw [fillVals_length]; omega)]
      exact hubuf
    · show n + s.len ≤ u.cap
      omega
    · exact hucap

lemma append_arr_wf {s : UString} {arr : List Nat} {t : UString} (hwf : Wf s)
    (h : append_arr s arr = .ok t) : Wf t := by
  unfold append_arr at h
  rcases eq_or_ne arr.length 0 with hz | h0
  · rw [if_pos hz] at h
    simp only [Except.ok.injEq] at h
    subst h
    exact hwf
  rw [if_neg h0] at h
  rcases Nat.lt_or_ge (usub max_size (usub s.len 0)) arr.length with hchk | hchk
  · rw [if_pos hchk] at h
    simp at h
  · rw [if_neg (not_lt.2 hchk)] at h
    obtain ⟨u, hu, hf⟩ := map_okE h
    obtain ⟨hul, hun, husl, hucap, hubuf⟩ := grow_step hwf hu
    subst hf
    apply set_length_wf
    · show (writeAt u.buf u.len arr).length = u.cap + 1
      rw [writeAt_length (by omega)]
      exact hubuf
    · show arr.length + s.len ≤ u.cap
      omega
    · exact hucap

lemma push_back_wf {s : UString} {c : Nat} {t : UString} (hwf : Wf s)
    (h : push_back s c = .ok t) : Wf t := by
  unfold push_back at h
  obtain ⟨u, hu, hf⟩ := map_okE h
  have hfacts : u.len = s.len ∧ s.len + 1 ≤ u.cap ∧ u.cap ≤ max_size ∧
      u.buf.length = u.cap + 1 := by
    split_ifs at hu with hg
    · obtain ⟨r', hr, hg2⟩ := map_okE hu
      obtain ⟨hc, hm⟩ := _S_capacity_ok hr
      subst hg2
      exact ⟨rfl, hc, hm, reallocBuf_length s.buf r'⟩
    · simp only [Except.ok.injEq] at hu
      subst hu
      exact ⟨rfl, by omega, hwf.2.2.1, hwf.1⟩
  obtain ⟨hul, hucap, humax, hubuf⟩ := hfacts
  subst hf
  apply set_length_wf
  · show (writeAt u.buf u.len [c]).length = u.cap + 1
    rw [writeAt_length (by simp; omega)]
    exact hubuf
  · show u.len + 1 ≤ u.cap
    omega
  · exact humax

lemma assign_fill_wf {s : UString} {n c : Nat} {t : UString} (hwf : Wf s)
    (h : assign_fill s n c = .ok t) : Wf t := by
  unfold assign_fill at h
  obtain ⟨u, hu, hf⟩ := map_okE h
  have hfacts : n ≤ u.cap ∧ u.cap ≤ max_size ∧ u.buf.length = u.cap + 1 := by
    split_ifs at hu with h1 h2
    · obtain ⟨_, _, h3, h4, h5⟩ := reserve_ok hwf hu
      exact ⟨h3, h4, h5⟩
    · simp only [Except.ok.injEq] at hu
      subst hu
      rw [shl1] at h2
      have hcap := hwf.2.2.1
      refine ⟨show n ≤ n <<< 1 by rw [shl1]; omega,
        show n <<< 1 ≤ max_size by rw [shl1]; omega, ?_⟩
      show (reallocBuf s.buf (n <<< 1)).length = n <<< 1 + 1
      exact reallocBuf_length s.buf (n <<< 1)
    · simp only [Except.ok.injEq] at hu
      subst hu
      exact ⟨by omega, hwf.2.2.1, hwf.1⟩
  obtain ⟨hun, humax, hubuf⟩ := hfacts
  subst hf
  apply set_length_wf
  · show (if n ≠ 0 then writeAt u.buf 0 (fillVals n c) else u.buf).length =
      u.cap + 1
    split_ifs
    · rw [writeAt_length (by rw [fillVals_length]; omega)]
      exact hubuf
    · exact hubuf
  · exact hun
  · exact humax

lemma assign_arr_wf {s : UString} {arr : List Nat} {t : UString} (hwf : Wf s)
    (h : assign_arr s arr = .ok t) : Wf t := by
  unfold assign_arr at h
  obtain ⟨u, hu, hf⟩ := map_okE h
  have hfacts : arr.length ≤ u.cap ∧ u.cap ≤ max_size ∧
      u.buf.length = u.cap + 1 := by
    split_ifs at hu with h1 h2
    · obtain ⟨_, _, h3, h4, h5⟩ := reserve_ok hwf hu
      exact ⟨h3, h4, h5⟩
    · simp only [Except.ok.injEq] at hu
      subst hu
      rw [shl1] at h2
      have hcap := hwf.2.2.1
      refine ⟨show arr.length ≤ arr.length <<< 1 by rw [shl1]; omega,
        show arr.length <<< 1 ≤ max_size by rw [shl1]; omega, ?_⟩
      show (reallocBuf s.buf (arr.length <<< 1)).length = arr.length <<< 1 + 1
      exact reallocBuf_length s.buf (arr.length <<< 1)
    · simp only [Except.ok.injEq] at hu
      subst hu
      exact ⟨by omega, hwf.2.2.1, hwf.1⟩
  obtain ⟨hun, humax, hubuf⟩ := hfacts
  subst hf
  apply set_length_wf
  · show (if arr.length ≠ 0 then writeAt u.buf 0 arr else u.buf).length =
      u.cap + 1
    split_ifs
    · rw [writeAt_length (by omega)]
      exact hubuf
    · exact hubuf
  · exact hun
  · exact humax

lemma _M_replace_wf {s : UString} {pos n1 : Nat} {vs : List Nat} {t : UString}
    (hwf : Wf s) (hpos : pos ≤ s.len) (hn1 : n1 ≤ s.len - pos)
    (h : _M_replace s pos n1 vs = .ok t) : Wf t := by
  obtain ⟨hbuf, hlen, hcap, hsent⟩ := hwf
  unfold _M_replace at h
  rcases Nat.lt_or_ge (usub max_size (usub s.len n1)) vs.length with hchk | hchk
  case inl =>
    rw [if_pos hchk] at h
    simp at h
  rw [if_neg (not_lt.2 hchk)] at h
  rcases eq_or_ne n1 vs.length with heq | heq
  · rw [if_pos heq] at h
    simp only [Except.ok.injEq] at h
    subst h
    refine ⟨?_, hlen, hcap, ?_⟩
    · show (writeAt s.buf pos vs).length = s.cap + 1
      rw [writeAt_length (by omega)]
      exact hbuf
    · show (writeAt s.buf pos vs)[s.len]? = some 0
      rw [writeAt_getElem_ge (by omega) (by omega)]
      exact hsent
  · rw [if_neg heq] at h
    obtain ⟨u, hu, hf⟩ := map_okE h
    obtain ⟨hul, hun, husl, hucap, hubuf⟩ :=
      grow_step ⟨hbuf, hlen, hcap, hsent⟩ hu
    subst hf
    have hseg : ((u.buf.drop (pos + n1)).take (u.len - pos - n1)).length =
        s.len - pos - n1 := by
      simp only [List.length_take, List.length_drop, hul]
      omega
    apply set_length_wf
    · show (writeAt
        (writeAt u.buf (pos + vs.length)
          ((u.buf.drop (pos + n1)).take (u.len - pos - n1))) pos vs).length =
        u.cap + 1
      rw [writeAt_length, writeAt_length]
      · exact hubuf
      · rw [hseg]
        omega
      · rw [writeAt_length (by rw [hseg]; omega)]
        omega
    · show s.len + vs.length - n1 ≤ u.cap
      omega
    · exact hucap

lemma insert_fill_wf {s : UString} {pos n c : Nat} {t : UString} (hwf : Wf s)
    (h : insert_fill s pos n c = .ok t) : Wf t := by
  unfold insert_fill at h
  split_ifs at h with hoor
  exact _M_replace_wf hwf (by omega) (by omega) h

lemma _M_limit_le (s : UString) (pos off : Nat) :
    _M_limit s pos off ≤ s.len - pos := by
  unfold _M_limit
  split_ifs <;> omega

lemma replace_wf {s : UString} {pos n1 : Nat} {arr : List Nat} {t : UString}
    (hwf : Wf s) (h : replace s pos n1 arr = .ok t) : Wf t := by
  unfold replace at h
  split_ifs at h with hoor
  exact _M_replace_wf hwf (by omega) (_M_limit_le s pos n1) h

lemma _M_erase_wf {s : UString} {pos n : Nat} (hwf : Wf s) (hpos : pos ≤ s.len)
    (_hn : n ≤ s.len - pos) : Wf (_M_erase s pos n) := by
  obtain ⟨hbuf, hlen, hcap, _⟩ := hwf
  unfold _M_erase
  apply set_length_wf
  · show (if s.len - pos - n ≠ 0 ∧ n ≠ 0 then
        writeAt s.buf pos ((s.buf.drop (pos + n)).take (s.len - pos - n))
      else s.buf).length = s.cap + 1
    split_ifs with hc
    · rw [writeAt_length]
      · exact hbuf
      · simp only [List.length_take, List.length_drop]
        omega
    · exact hbuf
  · show s.len - n ≤ s.cap
    omega
  · exact hcap

lemma erase_wf {s : UString} {pos n : Nat} {t : UString} (hwf : Wf s)
    (h : erase s pos n = .ok t) : Wf t := by
  have hlc := hwf.2.1
  unfold erase at h
  rcases Nat.lt_or_ge s.len pos with hoor | hoor
  · rw [if_pos hoor] at h
    simp at h
  · rw [if_neg (not_lt.2 hoor)] at h
    rcases eq_or_ne n npos with hh | hh
    · rw [if_pos hh] at h
      simp only [Except.ok.injEq] at h
      subst h
      exact set_length_wf hwf.1 (by omega) hwf.2.2.1
    · rw [if_neg hh] at h
      rcases eq_or_ne n 0 with rfl | h0
      · rw [if_neg (by simp)] at h
        simp only [Except.ok.injEq] at h
        subst h
        exact hwf
      · rw [if_pos h0] at h
        simp only [Except.ok.injEq] at h
        subst h
        exact _M_erase_wf hwf (by omega) (_M_limit_le s pos n)

lemma clear_wf {s : UString} (hwf : Wf s) : Wf (clear s) :=
  set_length_wf hwf.1 (Nat.zero_le _) hwf.2.2.1

lemma pop_back_wf {s : UString} (hwf : Wf s) (hne : 0 < s.len) :
    Wf (pop_back s) :=
  _M_erase_wf hwf (by omega) (by omega)

lemma resize_wf {s : UString} {n c : Nat} {t : UString} (hwf : Wf s)
    (h : resize s n c = .ok t) : Wf t := by
  have hlc := hwf.2.1
  unfold resize at h
  split_ifs at h with h1 h2
  · exact append_fill_wf hwf h
  · simp only [Except.ok.injEq] at h
    subst h
    exact set_length_wf hwf.1 (by omega) hwf.2.2.1
  · simp only [Except.ok.injEq] at h
    subst h
    exact hwf

/-- C6: starting from any well-formed `ustring`, every successful mutating
operation — `assign`, `append`, `push_back`, `insert`, `erase`, `replace`,
`resize`, `clear`, `pop_back` — leaves a state with `length ≤ capacity` and
the sentinel `CodeT(0)` in the slot at index `length`. -/
theorem mutators_preserve_invariant (s : UString) (hwf : Wf s) :
    (∀ n c t, assign_fill s n c = .ok t →
      t.len ≤ t.cap ∧ t.buf[t.len]? = some 0) ∧
    (∀ arr t, assign_arr s arr = .ok t →
      t.len ≤ t.cap ∧ t.buf[t.len]? = some 0) ∧
    (∀ n c t, append_fill s n c = .ok t →
      t.len ≤ t.cap ∧ t.buf[t.len]? = some 0) ∧
    (∀ arr t, append_arr s arr = .ok t →
      t.len ≤ t.cap ∧ t.buf[t.len]? = some 0) ∧
    (∀ c t, push_back s c = .ok t →
      t.len ≤ t.cap ∧ t.buf[t.len]? = some 0) ∧
    (∀ pos n c t, insert_fill s pos n c = .ok t →
      t.len ≤ t.cap ∧ t.buf[t.len]? = some 0) ∧
    (∀ pos n t, erase s pos n = .ok t →
      t.len ≤ t.cap ∧ t.buf[t.len]? = some 0) ∧
    (∀ pos n1 arr t, replace s pos n1 arr = .ok t →
      t.len ≤ t.cap ∧ t.buf[t.len]? = some 0) ∧
    (∀ n c t, resize s n c = .ok t →
      t.len ≤ t.cap ∧ t.buf[t.len]? = some 0) ∧
    ((clear s).len ≤ (clear s).cap ∧
      (clear s).buf[(clear s).len]? = some 0) ∧
    (0 < s.len → (pop_back s).len ≤ (pop_back s).cap ∧
      (pop_back s).buf[(pop_back s).len]? = some 0) := by
  refine ⟨?_, ?_, ?_, ?_, ?_, ?_, ?_, ?_, ?_, ?_, ?_⟩
  · exact fun n c t h => ⟨(assign_fill_wf hwf h).2.1, (assign_fill_wf hwf h).2.2.2⟩
  · exact fun arr t h => ⟨(assign_arr_wf hwf h).2.1, (assign_arr_wf hwf h).2.2.2⟩
  · exact fun n c t h => ⟨(append_fill_wf hwf h).2.1, (append_fill_wf hwf h).2.2.2⟩
  · exact fun arr t h => ⟨(append_arr_wf hwf h).2.1, (append_arr_wf hwf h).2.2.2⟩
  · exact fun c t h => ⟨(push_back_wf hwf h).2.1, (push_back_wf hwf h).2.2.2⟩
  · exact fun pos n c t h =>
      ⟨(insert_fill_wf hwf h).2.1, (insert_fill_wf hwf h).2.2.2⟩
  · exact fun pos n t h => ⟨(erase_wf hwf h).2.1, (erase_wf hwf h).2.2.2⟩
  · exact fun pos n1 arr t h =>
      ⟨(replace_wf hwf h).2.1, (replace_wf hwf h).2.2.2⟩
  · exact fun n c t h => ⟨(resize_wf hwf h).2.1, (resize_wf hwf h).2.2.2⟩
  · exact ⟨(clear_wf hwf).2.1, (clear_wf hwf).2.2.2⟩
  · exact fun hne => ⟨(pop_back_wf hwf hne).2.1, (pop_back_wf hwf hne).2.2.2⟩

/-- Witness for C6: pushing code point 7 onto the well-formed one-element
string `⟨1, 1, [5, 0]⟩` succeeds and the result satisfies the invariant. -/
theorem mutators_preserve_invariant_witness :
    Wf ⟨1, 1, [5, 0]⟩ ∧ push_back ⟨1, 1, [5, 0]⟩ 7 = .ok ⟨2, 2, [5, 7, 0]⟩ ∧
      (2 ≤ 2 ∧ ([5, 7, 0] : List Nat)[2]? = some 0) := by
  have hwf : Wf ⟨1, 1, [5, 0]⟩ := by
    unfold Wf
    refine ⟨by decide, by decide, by decide, by decide⟩
  refine ⟨hwf, by decide, ?_⟩
  exact (mutators_preserve_invariant ⟨1, 1, [5, 0]⟩ hwf).2.2.2.2.1 7
    ⟨2, 2, [5, 7, 0]⟩ (by decide)

lemma usub_usub (L n1 : Nat) (h1 : n1 ≤ L) (h2 : L ≤ max_size) :
    usub max_size (usub L n1) = max_size - (L - n1) := by
  unfold usub
  have := max_size_eq
  omega

lemma reserve_error_of_gt_max {s : UString} {res : Nat} (hwf : Wf s)
    (h : max_size < res) : reserve s res = .error .length_error := by
  have hlen := hwf.2.1
  have hcap := hwf.2.2.1
  simp only [reserve]
  rw [if_neg (show ¬ res < s.len by omega)]
  rw [if_pos (show res ≠ s.cap by omega)]
  unfold _S_capacity
  rw [if_pos (show res > max_size by omega)]
  rfl

/-- C8: on a well-formed `ustring`, a position argument beyond the current
length makes `erase`, `insert` and `replace` fail with the range error
(`_M_check`), and a computed post-operation size beyond
`max_size = npos >> 2` makes `append`, `insert`, `replace`, `assign` and
`push_back` fail with the length error (`_M_check_length` / `_S_capacity`);
each failing operation returns the error alone, producing no successor
state, so the buffer's contents, length and capacity are untouched. -/
theorem ustring_error_checks (s : UString) (hwf : Wf s) :
    (∀ pos n, s.len < pos → erase s pos n = .error .out_of_range) ∧
    (∀ pos n c, s.len < pos → insert_fill s pos n c = .error .out_of_range) ∧
    (∀ pos n1 arr, s.len < pos →
      replace s pos n1 arr = .error .out_of_range) ∧
    (∀ n c, max_size < s.len + n →
      append_fill s n c = .error .length_error) ∧
    (∀ pos n c, pos ≤ s.len → max_size < s.len + n →
      insert_fill s pos n c = .error .length_error) ∧
    (∀ pos n1 arr, pos ≤ s.len →
      max_size < s.len - _M_limit s pos n1 + arr.length →
      replace s pos n1 arr = .error .length_error) ∧
    (∀ n c, max_size < n → assign_fill s n c = .error .length_error) ∧
    (∀ c, max_size < s.len + 1 → push_back s c = .error .length_error) := by
  have hlen := hwf.2.1
  have hcap := hwf.2.2.1
  refine ⟨?_, ?_, ?_, ?_, ?_, ?_, ?_, ?_⟩
  · intro pos n h
    unfold erase
    rw [if_pos h]
  · intro pos n c h
    unfold insert_fill
    rw [if_pos h]
  · intro pos n1 arr h
    unfold replace
    rw [if_pos h]
  · intro n c h
    unfold append_fill
    rw [if_neg (show ¬ n = 0 by omega)]
    rw [usub_usub s.len 0 (Nat.zero_le _) (by omega)]
    rw [if_pos (by omega)]
  · intro pos n c hp h
    unfold insert_fill
    rw [if_neg (not_lt.2 hp)]
    unfold _M_replace
    rw [fillVals_length]
    rw [usub_usub s.len 0 (Nat.zero_le _) (by omega)]
    rw [if_pos (by omega)]
  · intro pos n1 arr hp h
    unfold replace
    rw [if_neg (not_lt.2 hp)]
    unfold _M_replace
    have hl := _M_limit_le s pos n1
    rw [usub_usub s.len (_M_limit s pos n1) (by omega) (by omega)]
    rw [if_pos (by omega)]
  · intro n c h
    unfold assign_fill
    rw [if_pos (show n > s.cap by omega)]
    rw [reserve_error_of_gt_max hwf h]
    rfl
  · intro c h
    unfold push_back
    rw [if_pos (show s.len + 1 > s.cap by omega)]
    unfold _S_capacity
    rw [if_pos (show s.len + 1 > max_size by omega)]
    rfl

/-- Witness for C8 on the well-formed string `⟨1, 1, [5, 0]⟩`: position 2
exceeds the length 1 and `erase` reports the range error; appending
`max_size` further elements exceeds `max_size` and reports the length
error. -/
theorem ustring_error_checks_witness :
    Wf ⟨1, 1, [5, 0]⟩ ∧
      erase ⟨1, 1, [5, 0]⟩ 2 1 = .error .out_of_range ∧
      append_fill ⟨1, 1, [5, 0]⟩ max_size 7 = .error .length_error := by
  have hwf : Wf ⟨1, 1, [5, 0]⟩ := by
    unfold Wf
    refine ⟨by decide, by decide, by decide, by decide⟩
  have h := ustring_error_checks ⟨1, 1, [5, 0]⟩ hwf
  exact ⟨hwf, h.1 2 1 (by decide),
    h.2.2.2.1 max_size 7 (by decide)⟩

end UStringModel


end StringUtils
